import Mathlib

/-!
Verification development for the interview-question generator app (app.py).
The pure logic of the program is embedded shallowly:

* the compliance pre-flight scanner `compliance_findings` with its fixed
  table `RISKY_PHRASES` of risky-phrase regular expressions, together with a
  small backtracking regular-expression matcher `mat` / `reSearch` that
  mirrors the semantics of Python `re.search` for the constructs those nine
  patterns use (literals, word boundaries, alternation with left preference,
  greedy optional groups, greedy word-character star);
* the markdown cleaning step `to_markdown` (code-fence removal, collapsing
  of runs of three or more newlines, whitespace stripping) and the
  paragraph classification performed line by line by `to_docx`;
* the upload text extraction `extract_text_from_upload` (UTF-8 decode with
  permissive latin-1 fallback for .txt/.md, external parsers for .docx/.pdf
  passed in as fallible functions, page-by-page PDF joining `pdf_extract`);
* the completion client `call_llm` with its hard-coded fallback pack.

Texts are modelled as `List Char` (or `String` where convenient); bytes as
`List Nat`.  Word characters and lowercasing are modelled at the ASCII
level, which is faithful for every property and input considered here.
-/

/-- Word character test for the regex class `\w` (ASCII model: letters,
digits and underscore, matching Python semantics on ASCII text). -/
def isWordChar (c : Char) : Bool := c.isAlpha || c.isDigit || c = '_'

/-- Whether an optional preceding character is a word character. -/
def prevIsWord : Option Char → Bool
  | none => false
  | some c => isWordChar c

/-- Whether the first character of the remaining text is a word character. -/
def headIsWord : List Char → Bool
  | [] => false
  | c :: _ => isWordChar c

/-- Semantics of the regex word-boundary assertion: exactly one side of the
current position is a word character. -/
def atWordBoundary (prev : Option Char) (rest : List Char) : Bool :=
  prevIsWord prev != headIsWord rest

/-- Regular-expression abstract syntax, covering exactly the constructs used
by the patterns in the fixed risky-phrase table. -/
inductive RE where
  | eps
  | ch (c : Char)
  | classW
  | wordB
  | seq (a b : RE)
  | alt (a b : RE)
  | opt (a : RE)
  | starW
deriving DecidableEq

/-- Literal string as a regular expression (sequence of characters). -/
def litRE (s : String) : RE := s.toList.foldr (fun c r => RE.seq (RE.ch c) r) RE.eps

/-- A pattern wrapped in word boundaries on both sides, the shape written as
a raw string of the form \b...\b in the source table. -/
def bnd (r : RE) : RE := RE.seq RE.wordB (RE.seq r RE.wordB)

/-- Greedy matcher for the regex fragment `\w*` in continuation-passing
style: consume as many word characters as possible, backtracking one at a
time into the continuation, exactly as the Python engine does. -/
def matStarW (prev : Option Char) (rest : List Char) (pos : Nat)
    (k : Option Char → List Char → Nat → Option Nat) : Option Nat :=
  match rest with
  | [] => k prev [] pos
  | c :: cs =>
    if isWordChar c then
      match matStarW (some c) cs (pos + 1) k with
      | some v => some v
      | none => k prev (c :: cs) pos
    else k prev (c :: cs) pos

/-- Backtracking matcher in continuation-passing style.  `prev` is the
character immediately before the current position (for `\b`), `pos` the
absolute position, and `k` the continuation.  Alternation prefers its left
branch and `?` prefers to consume, as in Python's `re`. -/
def mat : RE → Option Char → List Char → Nat →
    (Option Char → List Char → Nat → Option Nat) → Option Nat
  | RE.eps, prev, rest, pos, k => k prev rest pos
  | RE.ch c, _prev, rest, pos, k =>
    match rest with
    | [] => none
    | x :: xs => if x = c then k (some x) xs (pos + 1) else none
  | RE.classW, _prev, rest, pos, k =>
    match rest with
    | [] => none
    | x :: xs => if isWordChar x then k (some x) xs (pos + 1) else none
  | RE.wordB, prev, rest, pos, k =>
    if atWordBoundary prev rest then k prev rest pos else none
  | RE.seq a b, prev, rest, pos, k => mat a prev rest pos (fun p r q => mat b p r q k)
  | RE.alt a b, prev, rest, pos, k =>
    match mat a prev rest pos k with
    | some v => some v
    | none => mat b prev rest pos k
  | RE.opt a, prev, rest, pos, k =>
    match mat a prev rest pos k with
    | some v => some v
    | none => k prev rest pos
  | RE.starW, prev, rest, pos, k => matStarW prev rest pos k

/-- Scan for the leftmost position at which the pattern matches, returning
the half-open span of the match that the backtracking engine finds there.
This is the semantics of Python `re.search` / `m.start()` / `m.end()`. -/
def searchFrom (r : RE) (prev : Option Char) (rest : List Char) (pos : Nat) :
    Option (Nat × Nat) :=
  match mat r prev rest pos (fun _ _ q => some q) with
  | some e => some (pos, e)
  | none =>
    match rest with
    | [] => none
    | c :: cs => searchFrom r (some c) cs (pos + 1)

/-- Model of `re.search(pattern, s)`: first match span, or `none`. -/
def reSearch (r : RE) (s : List Char) : Option (Nat × Nat) :=
  searchFrom r none s 0

/-- Last character of `prev ++ u` as an optional character: the character
immediately before the position reached after consuming `u`, used to state
invariants of the matcher. -/
def lastD (prev : Option Char) (u : List Char) : Option Char :=
  u.foldl (fun _ c => some c) prev

/-- Model of Python `str.lower()` on the character list (ASCII model). -/
def pyLower (s : List Char) : List Char := s.map Char.toLower

/-- Model of `str.lower()` producing a `String`. -/
def pyLowerStr (s : String) : String := (pyLower s.toList).asString

/-- Boolean test that `pre` is a prefix of `s` (Python `str.startswith`). -/
def lsw : List Char → List Char → Bool
  | [], _ => true
  | _ :: _, [] => false
  | p :: ps, c :: cs => if p = c then lsw ps cs else false

/-- Boolean test that `suf` is a suffix of `s` (Python `str.endswith`). -/
def lsuf (suf s : List Char) : Bool := lsw suf.reverse s.reverse

/-- Boolean substring test: does `needle` occur contiguously in the second
argument? -/
def containsSub (needle : List Char) : List Char → Bool
  | [] => needle.isEmpty
  | c :: cs => lsw needle (c :: cs) || containsSub needle cs

/-- Model of Python `str.strip(chars)`: drop characters satisfying `p` from
both ends. -/
def pyStripChars (p : Char → Bool) (s : List Char) : List Char :=
  ((s.dropWhile p).reverse.dropWhile p).reverse

/-- Characters removed by Python `str.strip()` with no argument (ASCII
whitespace model). -/
def pyIsSpace (c : Char) : Bool :=
  c = ' ' || c = '\t' || c = '\n' || c = '\r' || c = '\x0B' || c = '\x0C'

/-- Model of Python `str.strip()`. -/
def pyStrip (s : List Char) : List Char := pyStripChars pyIsSpace s

/-- One entry of the risky-phrase table: the raw pattern string as written
in the source, its compiled form, and the advisory message. -/
structure RiskEntry where
  pat : String
  re : RE
  advice : String
deriving DecidableEq

/-- Entry `\byoung\b` of `RISKY_PHRASES`. -/
def riskYoung : RiskEntry :=
  ⟨"\\byoung\\b", bnd (litRE "young"),
   "Avoid age implications → use ‘early-career’ role level only if objectively defined."⟩

/-- Entry `\brecent graduate\b` of `RISKY_PHRASES`. -/
def riskRecentGraduate : RiskEntry :=
  ⟨"\\brecent graduate\\b", bnd (litRE "recent graduate"),
   "Avoid age proxy → specify entry-level skills instead."⟩

/-- Entry `\bable\-?bodied\b` of `RISKY_PHRASES`. -/
def riskAbleBodied : RiskEntry :=
  ⟨"\\bable\\-?bodied\\b",
   bnd (RE.seq (litRE "able") (RE.seq (RE.opt (RE.ch '-')) (litRE "bodied"))),
   "Avoid disability bias → describe essential functions and reasonable accommodations."⟩

/-- Entry `\bmust be a (us|uk|eu) citizen\b` of `RISKY_PHRASES`. -/
def riskCitizen : RiskEntry :=
  ⟨"\\bmust be a (us|uk|eu) citizen\\b",
   bnd (RE.seq (litRE "must be a ")
        (RE.seq (RE.alt (litRE "us") (RE.alt (litRE "uk") (litRE "eu"))) (litRE " citizen"))),
   "Citizenship limits can be discriminatory; ask for right-to-work unless legally required (e.g., export controls)."⟩

/-- Entry `\bnative (english|speaker)\b` of `RISKY_PHRASES`. -/
def riskNative : RiskEntry :=
  ⟨"\\bnative (english|speaker)\\b",
   bnd (RE.seq (litRE "native ") (RE.alt (litRE "english") (litRE "speaker"))),
   "Language as a proxy for nationality → specify required proficiency level instead."⟩

/-- Entry `\b(no )?criminal record\b` of `RISKY_PHRASES`. -/
def riskCriminal : RiskEntry :=
  ⟨"\\b(no )?criminal record\\b",
   bnd (RE.seq (RE.opt (litRE "no ")) (litRE "criminal record")),
   "Ban-the-box concerns → if relevant, state ‘background check may be required’ compliant with local law."⟩

/-- Entry `\bclean driving record\b` of `RISKY_PHRASES`. -/
def riskDriving : RiskEntry :=
  ⟨"\\bclean driving record\\b", bnd (litRE "clean driving record"),
   "If driving is essential, state requirement neutrally and per local law."⟩

/-- Entry `\b(no )?pregnan\w*\b` of `RISKY_PHRASES`. -/
def riskPregnan : RiskEntry :=
  ⟨"\\b(no )?pregnan\\w*\\b",
   bnd (RE.seq (RE.opt (litRE "no ")) (RE.seq (litRE "pregnan") RE.starW)),
   "Pregnancy/family status is protected → remove."⟩

/-- Entry `\bmarried|single|divorced\b` of `RISKY_PHRASES`.  Note the regex
alternation binds loosely: the branches are `\bmarried`, bare `single`, and
`divorced\b`, which is reflected verbatim here. -/
def riskMarital : RiskEntry :=
  ⟨"\\bmarried|single|divorced\\b",
   RE.alt (RE.seq RE.wordB (litRE "married"))
     (RE.alt (litRE "single") (RE.seq (litRE "divorced") RE.wordB)),
   "Family/marital status is protected → remove."⟩

/-- The fixed risky-phrase table, in source (dict) order. -/
def RISKY_PHRASES : List RiskEntry :=
  [riskYoung, riskRecentGraduate, riskAbleBodied, riskCitizen, riskNative,
   riskCriminal, riskDriving, riskPregnan, riskMarital]

/-- The plain-text label of a finding: `pattern.strip("\\b")`, i.e. the raw
pattern string with backslash and letter `b` characters stripped from both
ends. -/
def labelOf (e : RiskEntry) : String :=
  (pyStripChars (fun c => c = '\\' || c = 'b') e.pat.toList).asString

/-- Model of `compliance_findings`: lowercase the text once, search each
pattern of the table in order, and for each pattern that matches emit one
finding pairing the label with the advice plus a snippet sliced from the
original text thirty characters around the match (clipped to the string). -/
def compliance_findings (text : String) : List (String × String) :=
  let lowered := pyLower text.toList
  RISKY_PHRASES.filterMap fun e =>
    match reSearch e.re lowered with
    | some (i, j) =>
      some
        (labelOf e,
         e.advice ++ "  Snippet: …" ++
           ((text.toList.drop (i - 30)).take (j + 30 - (i - 30))).asString ++ "…")
    | none => none

/-- The backquote character, written by code point to keep source text
plain. -/
def backquote : Char := Char.ofNat 96

/-- Replacement applied to one maximal run of `n` backquotes by
`re.sub(r"(three or more backquotes)", "", text)`: runs of three or more
are removed, shorter runs are kept. -/
def emitTicks (n : Nat) : List Char :=
  if 3 ≤ n then [] else List.replicate n backquote

/-- Worker for the code-fence removal pass: `n` counts the pending run of
backquotes already read. -/
def stripFencesGo : Nat → List Char → List Char
  | n, [] => emitTicks n
  | n, c :: cs =>
    if c = backquote then stripFencesGo (n + 1) cs
    else emitTicks n ++ c :: stripFencesGo 0 cs

/-- Code-fence removal, the first substitution in `to_markdown`. -/
def stripFences (s : List Char) : List Char := stripFencesGo 0 s

/-- Replacement applied to one maximal run of `n` newlines by
`re.sub(r"\n{3,}", "\n\n", text)`: runs of three or more become exactly
two, shorter runs are kept. -/
def emitNLs (n : Nat) : List Char :=
  if 3 ≤ n then ['\n', '\n'] else List.replicate n '\n'

/-- Worker for the blank-line collapsing pass: `n` counts the pending run
of newlines already read. -/
def collapseNLGo : Nat → List Char → List Char
  | n, [] => emitNLs n
  | n, c :: cs =>
    if c = '\n' then collapseNLGo (n + 1) cs
    else emitNLs n ++ c :: collapseNLGo 0 cs

/-- Blank-line collapsing, the second substitution in `to_markdown`. -/
def collapseNL (s : List Char) : List Char := collapseNLGo 0 s

/-- Model of `to_markdown`: remove code fences, collapse runs of three or
more newlines to two, then strip surrounding whitespace. -/
def to_markdown (s : List Char) : List Char := pyStrip (collapseNL (stripFences s))

/-- Structural content of one paragraph added to the generated document. -/
inductive Para where
  | blank
  | heading (t : List Char)
  | bullet1 (t : List Char)
  | bullet2 (t : List Char)
  | plain (t : List Char)
deriving DecidableEq

/-- Classification of one already-stripped line, following the branch order
of the rendering loop in `to_docx`. -/
def classifyStripped (s : List Char) : Para :=
  if s = [] then Para.blank
  else if lsw ['*', '*'] s && (lsuf ['*', '*'] s && decide (4 < s.length)) then
    Para.heading (pyStripChars (fun c => c = '*') s)
  else if lsw ['•', ' '] s then Para.bullet1 (pyStrip (s.drop 2))
  else if lsw ['–', ' '] s then Para.bullet2 (pyStrip (s.drop 2))
  else if lsw ['-', ' '] s then Para.bullet2 (pyStrip (s.drop 2))
  else Para.plain s

/-- Classification of one raw line: strip it first, as the loop does. -/
def classifyLine (ln : List Char) : Para := classifyStripped (pyStrip ln)

/-- Model of Python `str.split("\n")` (keeps empty segments, and the split
of the empty string is one empty segment). -/
def splitNL : List Char → List (List Char)
  | [] => [[]]
  | c :: cs =>
    if c = '\n' then [] :: splitNL cs
    else
      match splitNL cs with
      | [] => [[c]]
      | l :: ls => (c :: l) :: ls

/-- Model of `to_docx` at the level of document structure: the sequence of
paragraphs added to the document, one per line of the input.  The byte
serialization and font styling performed by the external python-docx
library are outside the embedded logic. -/
def to_docx (markdown_like : List Char) : List Para :=
  (splitNL markdown_like).map classifyLine

/-- Outcome of `page.extract_text()` for one PDF page: a returned value
(`none` models Python `None`), or a raised exception. -/
inductive PageResult where
  | ok (s : Option String)
  | err
deriving DecidableEq

/-- Text appended for a successful page: `page.extract_text() or ""`. -/
def pageText (s : Option String) : String := s.getD ""

/-- One iteration of the page loop: a successful page appends its text to
the accumulator, a page whose extraction raises leaves it unchanged (the
bare `except: pass` of the source). -/
def pageStep (acc : List String) (p : PageResult) : List String :=
  match p with
  | PageResult.ok s => acc ++ [pageText s]
  | PageResult.err => acc

/-- The page loop of the PDF branch. -/
def extract_pdf_pages (pages : List PageResult) : List String :=
  pages.foldl pageStep []

/-- PDF text assembly: join the collected page texts with newlines. -/
def pdf_extract (pages : List PageResult) : String :=
  String.intercalate "\n" (extract_pdf_pages pages)

/-- Text of one page as the specification describes it: the extracted text
on success, the empty string when extraction fails. -/
def pageTextOrEmpty (p : PageResult) : String :=
  match p with
  | PageResult.ok s => pageText s
  | PageResult.err => ""

/-- Definition following the specification's words, for comparison with
`pdf_extract`: for each page whose extraction fails treat that page's text
as empty, and join all pages with newline separators in page order. -/
def pdf_extract_spec (pages : List PageResult) : String :=
  String.intercalate "\n" (pages.map pageTextOrEmpty)

/-- Continuation-byte test for the strict UTF-8 decoder. -/
def utf8Cont (b : Nat) : Bool := 128 ≤ b && b < 192

/-- Strict UTF-8 decoding of a byte list, `none` on any malformed input
(stray continuation, truncated sequence, overlong encoding, surrogate or
out-of-range code point).  Models `bytes.decode("utf-8")` raising. -/
def utf8Decode : List Nat → Option (List Char)
  | [] => some []
  | b :: bs =>
    if b < 128 then (utf8Decode bs).map (fun r => Char.ofNat b :: r)
    else if b < 192 then none
    else if b < 224 then
      match bs with
      | b1 :: bs2 =>
        if utf8Cont b1 then
          let cp := (b - 192) * 64 + (b1 - 128)
          if cp < 128 then none
          else (utf8Decode bs2).map (fun r => Char.ofNat cp :: r)
        else none
      | [] => none
    else if b < 240 then
      match bs with
      | b1 :: b2 :: bs3 =>
        if utf8Cont b1 && utf8Cont b2 then
          let cp := (b - 224) * 4096 + (b1 - 128) * 64 + (b2 - 128)
          if cp < 2048 then none
          else if 55296 ≤ cp && cp < 57344 then none
          else (utf8Decode bs3).map (fun r => Char.ofNat cp :: r)
        else none
      | _ => none
    else if b < 245 then
      match bs with
      | b1 :: b2 :: b3 :: bs4 =>
        if utf8Cont b1 && utf8Cont b2 && utf8Cont b3 then
          let cp := (b - 240) * 262144 + (b1 - 128) * 4096 + (b2 - 128) * 64 + (b3 - 128)
          if cp < 65536 then none
          else if 1114111 < cp then none
          else (utf8Decode bs4).map (fun r => Char.ofNat cp :: r)
        else none
      | _ => none
    else none

/-- Latin-1 decoding: every byte maps directly to the code point of the
same value, so this is total — which is why
`data.decode("latin-1", errors="ignore")` can never fail. -/
def latin1Decode (data : List Nat) : String := (data.map Char.ofNat).asString

/-- The `.txt`/`.md` decode step: UTF-8, falling back to permissive latin-1
on failure (the try/except block of the source). -/
def decode_txt (data : List Nat) : String :=
  match utf8Decode data with
  | some cs => cs.asString
  | none => latin1Decode data

/-- An uploaded artifact: declared file name and raw bytes. -/
structure Upload where
  name : String
  data : List Nat

/-- Boolean suffix test on strings. -/
def strEndsWith (s suf : String) : Bool := lsuf suf.toList s.toList

/-- Model of `extract_text_from_upload`.  The external parsers are passed
in as fallible functions: `docxParse` models `Document(...)` plus reading
the paragraph texts, `pdfParse` models `PdfReader(...)` plus per-page
extraction outcomes; an `Except.error` models a raised exception, which the
source does not guard against.  The availability flags model the parser
libraries being importable; when a library is missing the source shows an
error message and returns the empty string. -/
def extract_text_from_upload (docxAvail pdfAvail : Bool)
    (docxParse : List Nat → Except Unit (List String))
    (pdfParse : List Nat → Except Unit (List PageResult))
    (upload : Option Upload) : Except Unit String :=
  match upload with
  | none => Except.ok ""
  | some u =>
    let name := pyLowerStr u.name
    let data := u.data
    if strEndsWith name ".txt" || strEndsWith name ".md" then
      Except.ok (decode_txt data)
    else if strEndsWith name ".docx" then
      if docxAvail then
        match docxParse data with
        | Except.ok paras => Except.ok (String.intercalate "\n" paras)
        | Except.error e => Except.error e
      else Except.ok ""
    else if strEndsWith name ".pdf" then
      if pdfAvail then
        match pdfParse data with
        | Except.ok pages => Except.ok (pdf_extract pages)
        | Except.error e => Except.error e
      else Except.ok ""
    else Except.ok ""

/-- The hard-coded fallback interview pack returned when no API client is
configured, transcribed verbatim from the source. -/
def FALLBACK_PACK : String :=
  "**Introduction (Script, 1–2 mins)**\n• Welcome and interview format overview.\n\n**Background & Experience (5–8 mins)**\n• Tell me about one project most similar to this role’s remit. – What was your exact scope? – What changed due to your work?\n\n**Motivation for Neogen (2–3 mins)**\n• What draws you to this role and the problems we solve?\n\n**Skills & Qualifications (6–8 mins)**\n• Walk me through a recent example demonstrating a core JD must-have. – How did you measure success?\n\n**Company Knowledge (2–3 mins)**\n• Where could you contribute in your first 90 days and why?\n\n**Role-Specific Questions (Core, 10–12 mins)**\n• Deep dive prompt…\n\n**Behavioural (Values & Ways of Working, 6–8 mins)**\n• Tell me about a time you influenced without authority. – What would you do differently next time?\n\n**Scenario-Based / Problem-Solving (6–8 mins)**\n• Scenario prompt with (Good:) and (Red flag:) cues.\n\n**Candidate Questions (2–4 mins)**\n• 3 example candidate questions…\n\n**Conclusion & Next Steps (Script, 1–2 mins)**\n• Thank you + next steps script.\n\n**Evaluation Rubric (Concise)**\n• Criteria with 1/3/5 descriptors…\n\n**Scorecard Template & Notes Page**\n• Role | Interviewer | Date …\n"

/-- Model of `call_llm`.  The global `_client` is passed explicitly: `none`
means no API credential was configured at start-up; `some complete` models
the chat-completion endpoint as a function of (prompt, system prompt,
model) returning the optional content of the first choice, with `none`
content mapped to the empty string by `or ""`. -/
def call_llm (client : Option (String → String → String → Option String))
    (prompt system_prompt model : String) : String :=
  match client with
  | none => FALLBACK_PACK
  | some complete => (complete prompt system_prompt model).getD ""

/-! ### Basic lemmas about the string helpers -/

theorem lsw_iff (p : List Char) : ∀ s, lsw p s = true ↔ ∃ t, s = p ++ t := by
  induction p with
  | nil =>
    intro s
    simp [lsw]
  | cons a as ih =>
    intro s
    cases s with
    | nil =>
      simp [lsw]
    | cons c cs =>
      by_cases hac : a = c
      · subst hac
        have h1 : lsw (a :: as) (a :: cs) = lsw as cs := by simp [lsw]
        rw [h1, ih cs]
        constructor
        · rintro ⟨t, rfl⟩
          exact ⟨t, rfl⟩
        · rintro ⟨t, ht⟩
          injection ht with _ h2
          exact ⟨t, h2⟩
      · have h1 : lsw (a :: as) (c :: cs) = false := by simp [lsw, hac]
        rw [h1]
        constructor
        · intro h
          exact absurd h (by simp)
        · rintro ⟨t, ht⟩
          injection ht with h2 _
          exact absurd h2.symm hac

theorem lsw_two (a b : Char) (s : List Char) (h : lsw [a, b] s = true) :
    ∃ t, s = a :: b :: t := by
  rcases (lsw_iff [a, b] s).mp h with ⟨t, rfl⟩
  exact ⟨t, rfl⟩

theorem containsSub_iff (n : List Char) : ∀ s, containsSub n s = true ↔ ∃ u v, s = u ++ n ++ v := by
  intro s
  induction s with
  | nil =>
    simp only [containsSub]
    constructor
    · intro h
      refine ⟨[], [], ?_⟩
      have : n = [] := by simpa using h
      simp [this]
    · rintro ⟨u, v, h⟩
      have hu : u = [] ∧ n = [] ∧ v = [] := by
        constructor
        · cases u with
          | nil => rfl
          | cons x xs => simp at h
        · cases u with
          | nil =>
            simp at h
            exact ⟨h.1, h.2⟩
          | cons x xs => simp at h
      simp [hu.2.1]
  | cons c cs ih =>
    simp only [containsSub, Bool.or_eq_true]
    rw [lsw_iff, ih]
    constructor
    · rintro (⟨t, ht⟩ | ⟨u, v, hv⟩)
      · exact ⟨[], t, by simpa using ht⟩
      · exact ⟨c :: u, v, by simp [hv]⟩
    · rintro ⟨u, v, hv⟩
      cases u with
      | nil =>
        exact Or.inl ⟨v, by simpa using hv⟩
      | cons x xs =>
        right
        injection hv with _ h2
        exact ⟨xs, v, h2⟩

theorem containsSub_append_left (n t l : List Char) (h : containsSub n t = true) :
    containsSub n (l ++ t) = true := by
  rcases (containsSub_iff n t).mp h with ⟨u, v, rfl⟩
  exact (containsSub_iff n (l ++ (u ++ n ++ v))).mpr ⟨l ++ u, v, by simp⟩

/-! ### Claim C1: at most one finding per pattern, first match only -/

theorem finding_keys_mem (L : List RiskEntry) (g : RiskEntry → Option (String × String))
    (lab : RiskEntry → String) (hg : ∀ e b, g e = some b → b.1 = lab e) :
    ∀ b ∈ L.filterMap g, b.1 ∈ L.map lab := by
  intro b hb
  rcases List.mem_filterMap.mp hb with ⟨e, he, hge⟩
  exact (hg e b hge) ▸ List.mem_map_of_mem lab he

theorem findings_key_unique (L : List RiskEntry) (g : RiskEntry → Option (String × String))
    (lab : RiskEntry → String) (hg : ∀ e b, g e = some b → b.1 = lab e)
    (hnd : (L.map lab).Nodup) (key : String) :
    (L.filterMap g).countP (fun f => f.1 == key) ≤ 1 := by
  induction L with
  | nil => simp
  | cons e L ih =>
    have hnd' : (L.map lab).Nodup := (List.nodup_cons.mp (by simpa using hnd)).2
    have hlab : lab e ∉ L.map lab := (List.nodup_cons.mp (by simpa using hnd)).1
    rcases hge : g e with _ | b
    · rw [List.filterMap_cons_none hge]
      exact ih hnd'
    · rw [List.filterMap_cons_some hge]
      rw [List.countP_cons]
      by_cases hk : (b.1 == key) = true
      · have hzero : (L.filterMap g).countP (fun f => f.1 == key) = 0 := by
          rw [List.countP_eq_zero]
          intro x hx hxk
          have h1 : x.1 ∈ L.map lab := finding_keys_mem L g lab hg x hx
          have h2 : x.1 = key := by simpa using hxk
          have h3 : b.1 = key := by simpa using hk
          have h4 : b.1 = lab e := hg e b hge
          rw [h2] at h1
          rw [← h3, h4] at h1
          exact hlab h1
        rw [hzero]
        simp [hk]
      · simp only [hk, if_false]
        simpa using ih hnd'

/-- Claim C1: for every input text the compliance scanner reports at most
one finding per pattern (each pattern contributes at most one label, via a
single first-match search), and scanning the text "young young young"
yields exactly the one `young` finding, built from the first match. -/
theorem claim_C1 :
    (∀ (text key : String),
      (compliance_findings text).countP (fun f => f.1 == key) ≤ 1) ∧
    compliance_findings "young young young" =
      [("young",
        "Avoid age implications → use ‘early-career’ role level only if objectively defined.  Snippet: …young young young…")] := by
  constructor
  · intro text key
    have hg : ∀ (e : RiskEntry) (b : String × String),
        (fun (e : RiskEntry) =>
          match reSearch e.re (pyLower text.toList) with
          | some (i, j) =>
            some
              (labelOf e,
               e.advice ++ "  Snippet: …" ++
                 ((text.toList.drop (i - 30)).take (j + 30 - (i - 30))).asString ++ "…")
          | none => none) e = some b → b.1 = labelOf e := by
      intro e b h
      rcases hm : reSearch e.re (pyLower text.toList) with _ | ⟨i, j⟩
      · simp only [hm] at h
        exact Option.noConfusion h
      · simp only [hm, Option.some.injEq] at h
        rw [← h]
    have hnd : (RISKY_PHRASES.map labelOf).Nodup := by decide
    exact findings_key_unique RISKY_PHRASES _ labelOf hg hnd key
  · decide

/-! ### Claim C2: fallback pack when no credential is configured -/

set_option maxRecDepth 20000 in
/-- Claim C2: when no API client is configured, `call_llm` returns the
fixed hard-coded fallback pack regardless of the prompts and model, and
that pack contains all twelve named sections. -/
theorem claim_C2 : ∀ (prompt system_prompt model : String),
    call_llm none prompt system_prompt model = FALLBACK_PACK ∧
    (["Introduction", "Background & Experience", "Motivation",
      "Skills & Qualifications", "Company Knowledge", "Role-Specific",
      "Behavioural", "Scenario-Based", "Candidate Questions", "Conclusion",
      "Evaluation Rubric", "Scorecard Template"].all
        fun sec => containsSub sec.toList FALLBACK_PACK.toList) = true := by
  intro prompt system_prompt model
  exact ⟨rfl, by decide⟩

/-! ### Claim C3: the worked rendering example -/

/-- Claim C3: cleaning and rendering the example markdown produces exactly
a bold heading, a level-1 bullet, a level-2 bullet, one single blank
paragraph (the three blank lines are collapsed), and a plain paragraph. -/
theorem claim_C3 :
    to_docx (to_markdown ("**Header**\n• Point one\n– Sub point\n\n\n\nNext".toList)) =
      [Para.heading "Header".toList, Para.bullet1 "Point one".toList,
       Para.bullet2 "Sub point".toList, Para.blank, Para.plain "Next".toList] := by
  decide

/-! ### Claim C5: word boundaries, and the unanchored `single` branch -/

/-- Claim C5 counterexample: in the text "singleton" the word `single`
occurs only inside the longer word "singleton", yet the scanner emits a
finding for the married|single|divorced pattern, because the `single`
branch of that alternation carries no word boundary. -/
theorem claim_C5_counterexample :
    compliance_findings "singleton" =
      [("married|single|divorced",
        "Family/marital status is protected → remove.  Snippet: …singleton…")] := by
  decide

/-! ### Claim C6: shape of an emitted finding -/

/-- Claim C6: whenever a pattern of the table matches the lowercased text
with span `[i, j)`, the scanner emits the finding built from the pattern's
plain-text label and its advisory message followed by the snippet sliced
thirty characters around the match, clipped to the string bounds. -/
theorem claim_C6 : ∀ (text : String) (e : RiskEntry), e ∈ RISKY_PHRASES →
    ∀ i j, reSearch e.re (pyLower text.toList) = some (i, j) →
    (labelOf e,
      e.advice ++ "  Snippet: …" ++
        ((text.toList.drop (i - 30)).take (j + 30 - (i - 30))).asString ++ "…")
      ∈ compliance_findings text := by
  intro text e he i j hs
  apply List.mem_filterMap.mpr
  refine ⟨e, he, ?_⟩
  simp only [hs]

/-- Witness for claim C6 at the `young` pattern on the text "be young",
whose first match spans positions 3 to 8. -/
theorem claim_C6_witness :
    riskYoung ∈ RISKY_PHRASES ∧
    reSearch riskYoung.re (pyLower "be young".toList) = some (3, 8) ∧
    (labelOf riskYoung,
      riskYoung.advice ++ "  Snippet: …" ++
        (("be young".toList.drop (3 - 30)).take (8 + 30 - (3 - 30))).asString ++ "…")
      ∈ compliance_findings "be young" :=
  ⟨by decide, by decide, claim_C6 "be young" riskYoung (by decide) 3 8 (by decide)⟩

/-! ### Claim C7: failed PDF pages are skipped, not joined as empty -/

theorem foldl_pageStep (pages : List PageResult) :
    ∀ acc : List String, PageResult.err ∉ pages →
    pages.foldl pageStep acc = acc ++ pages.map pageTextOrEmpty := by
  induction pages with
  | nil =>
    intro acc _
    simp
  | cons p ps ih =>
    intro acc h
    cases p with
    | ok s =>
      simp only [List.foldl_cons, List.map_cons]
      rw [ih _ (fun hx => h (List.mem_cons_of_mem _ hx))]
      simp [pageStep, pageTextOrEmpty]
    | err =>
      exact absurd (List.mem_cons_self _ _) h

/-- Claim C7 counterexample: with a first page whose extraction raises and
a second page extracting "x", the code yields "x" (the failed page is
skipped entirely), while the specified behaviour — treat the failed page
as empty and join all pages — would yield a newline followed by "x"; with
two pages the result carries no separator at all, not one. -/
theorem claim_C7_counterexample :
    pdf_extract [PageResult.err, PageResult.ok (some "x")] = "x" ∧
    pdf_extract_spec [PageResult.err, PageResult.ok (some "x")] = "\nx" ∧
    pdf_extract [PageResult.err, PageResult.ok (some "x")] ≠
      pdf_extract_spec [PageResult.err, PageResult.ok (some "x")] := by
  exact ⟨rfl, rfl, by decide⟩

/-- Claim C7 as amended: pages are processed in order and successful pages
contribute their extracted text, but a page whose extraction raises is
skipped entirely (it contributes neither text nor separator); the result
agrees with the spec's all-pages newline join exactly on inputs where no
page fails, as on the concrete skipping example the code returns "x". -/
theorem claim_C7_thm :
    (∀ pages : List PageResult, PageResult.err ∉ pages →
      pdf_extract pages = pdf_extract_spec pages) ∧
    pdf_extract [PageResult.err, PageResult.ok (some "x")] = "x" := by
  constructor
  · intro pages h
    unfold pdf_extract pdf_extract_spec extract_pdf_pages
    rw [foldl_pageStep pages [] h, List.nil_append]
  · rfl

/-- Witness for the amended claim C7 on a two-page document where both
pages succeed (one of them returning Python `None`). -/
theorem claim_C7_witness :
    PageResult.err ∉ [PageResult.ok (some "a"), PageResult.ok none] ∧
    pdf_extract [PageResult.ok (some "a"), PageResult.ok none] =
      pdf_extract_spec [PageResult.ok (some "a"), PageResult.ok none] :=
  ⟨by decide, claim_C7_thm.1 _ (by decide)⟩

/-! ### Claim C8: extraction totality and the decode fallback -/

/-- Claim C8 counterexample: for a `.docx` upload whose bytes the external
parser rejects (as python-docx does on arbitrary non-zip bytes, e.g. the
empty file), the unguarded parser call makes extraction propagate the
failure instead of returning a string. -/
theorem claim_C8_counterexample :
    extract_text_from_upload true true (fun _ => Except.error ()) (fun _ => Except.error ())
      (some ⟨"a.docx", []⟩) = Except.error () := rfl

/-- Claim C8 as amended: for `.txt`/`.md` uploads extraction never fails on
any byte content — it returns the UTF-8 decoding when the bytes are valid
and otherwise falls back to the total permissive latin-1 decoding — while
for `.docx`/`.pdf` a failure of the external parser propagates. -/
theorem claim_C8_thm :
    ∀ (docxAvail pdfAvail : Bool)
      (docxParse : List Nat → Except Unit (List String))
      (pdfParse : List Nat → Except Unit (List PageResult))
      (name : String) (data : List Nat),
    (strEndsWith (pyLowerStr name) ".txt" || strEndsWith (pyLowerStr name) ".md") = true →
    extract_text_from_upload docxAvail pdfAvail docxParse pdfParse (some ⟨name, data⟩) =
      Except.ok (decode_txt data) ∧
    (utf8Decode data = none → decode_txt data = latin1Decode data) := by
  intro da pa dp pp name data h
  constructor
  · simp only [extract_text_from_upload]
    rw [if_pos h]
  · intro hu
    simp [decode_txt, hu]

/-- Witness for the amended claim C8: an upper-case-named text upload whose
single byte 255 is not valid UTF-8 decodes through the latin-1 fallback. -/
theorem claim_C8_witness :
    (strEndsWith (pyLowerStr "JD.TXT") ".txt" || strEndsWith (pyLowerStr "JD.TXT") ".md") = true ∧
    utf8Decode [255] = none ∧
    extract_text_from_upload true true (fun _ => Except.error ()) (fun _ => Except.error ())
      (some ⟨"JD.TXT", [255]⟩) = Except.ok (decode_txt [255]) ∧
    decode_txt [255] = latin1Decode [255] := by
  have h := claim_C8_thm true true (fun _ => Except.error ()) (fun _ => Except.error ())
    "JD.TXT" [255] (by decide)
  exact ⟨by decide, by decide, h.1, h.2 (by decide)⟩

/-! ### Claim C9: snippets come from the original, un-lowercased text -/

/-- Claim C9: matching runs over the lowercased copy, but the snippet of
each finding is sliced from the original text at the indices of that match,
so it preserves the input's casing: its own lowering equals the
corresponding slice of the lowercased text. -/
theorem claim_C9 : ∀ (text : String) (e : RiskEntry), e ∈ RISKY_PHRASES →
    ∀ i j, reSearch e.re (pyLower text.toList) = some (i, j) →
    ∃ snip : List Char,
      (labelOf e, e.advice ++ "  Snippet: …" ++ snip.asString ++ "…")
        ∈ compliance_findings text ∧
      snip = (text.toList.drop (i - 30)).take (j + 30 - (i - 30)) ∧
      pyLower snip = ((pyLower text.toList).drop (i - 30)).take (j + 30 - (i - 30)) := by
  intro text e he i j hs
  refine ⟨(text.toList.drop (i - 30)).take (j + 30 - (i - 30)), ?_, rfl, ?_⟩
  · apply List.mem_filterMap.mpr
    refine ⟨e, he, ?_⟩
    simp only [hs]
  · unfold pyLower
    rw [List.map_take, List.map_drop]

/-- Witness for claim C9 on the text "YOUNG man": the match is found in the
lowered copy at span 0–5, and the emitted snippet keeps the capitals. -/
theorem claim_C9_witness :
    reSearch riskYoung.re (pyLower "YOUNG man".toList) = some (0, 5) ∧
    ∃ snip : List Char,
      (labelOf riskYoung, riskYoung.advice ++ "  Snippet: …" ++ snip.asString ++ "…")
        ∈ compliance_findings "YOUNG man" ∧
      snip = ("YOUNG man".toList.drop (0 - 30)).take (5 + 30 - (0 - 30)) ∧
      pyLower snip = ((pyLower "YOUNG man".toList).drop (0 - 30)).take (5 + 30 - (0 - 30)) :=
  ⟨by decide, claim_C9 "YOUNG man" riskYoung (by decide) 0 5 (by decide)⟩

/-! ### Claim C10: both secondary dash markers give level-2 bullets -/

/-- Claim C10: a line whose stripped form is non-blank and starts with
either the en-dash marker or the ASCII hyphen marker is rendered as a
level-2 bulleted paragraph whose text is the remainder after the
two-character marker, whitespace-trimmed — identically for both markers. -/
theorem claim_C10 : ∀ ln : List Char,
    pyStrip ln ≠ [] →
    (lsw ['–', ' '] (pyStrip ln) = true ∨ lsw ['-', ' '] (pyStrip ln) = true) →
    classifyLine ln = Para.bullet2 (pyStrip ((pyStrip ln).drop 2)) := by
  intro ln _ h
  unfold classifyLine
  rcases h with h | h
  · obtain ⟨t, ht⟩ := lsw_two _ _ _ h
    rw [ht]
    rfl
  · obtain ⟨t, ht⟩ := lsw_two _ _ _ h
    rw [ht]
    rfl

/-- Witness for claim C10 on the raw line "  – hello ". -/
theorem claim_C10_witness :
    pyStrip "  – hello ".toList ≠ [] ∧
    lsw ['–', ' '] (pyStrip "  – hello ".toList) = true ∧
    classifyLine "  – hello ".toList =
      Para.bullet2 (pyStrip ((pyStrip "  – hello ".toList).drop 2)) :=
  ⟨by decide, by decide, claim_C10 _ (by decide) (Or.inl (by decide))⟩

/-! ### Claim C4: idempotence of the markdown cleaning -/

theorem lsw_cons_same (a : Char) (p t : List Char) : lsw (a :: p) (a :: t) = lsw p t := by
  show (if a = a then lsw p t else false) = lsw p t
  rw [if_pos rfl]

theorem lsw_cons_ne (a c : Char) (p t : List Char) (h : ¬ a = c) :
    lsw (a :: p) (c :: t) = false := by
  show (if a = c then lsw p t else false) = false
  rw [if_neg h]

theorem run3_replicate_le (x : Char) (k : Nat) (hk : k ≤ 2) :
    containsSub [x, x, x] (List.replicate k x) = false := by
  rw [Bool.eq_false_iff]
  intro h
  rcases (containsSub_iff _ _).mp h with ⟨u, v, huv⟩
  have hlen := congrArg List.length huv
  simp [List.length_replicate, List.length_append] at hlen
  omega

theorem run3_replicate_ne (x y : Char) (m : Nat) (hxy : ¬ x = y) :
    containsSub [x, x, x] (List.replicate m y) = false := by
  rw [Bool.eq_false_iff]
  intro h
  rcases (containsSub_iff _ _).mp h with ⟨u, v, huv⟩
  have hx : x ∈ List.replicate m y := by
    rw [huv]
    simp
  exact hxy (List.eq_of_mem_replicate hx)

theorem noRun_glue (x c : Char) (t : List Char) (k : Nat) (hk : k ≤ 2) (hc : ¬ c = x)
    (ht : containsSub [x, x, x] t = false) :
    containsSub [x, x, x] (List.replicate k x ++ c :: t) = false := by
  have hxc : ¬ x = c := fun h => hc h.symm
  have l1 : lsw [x, x, x] (c :: t) = false := lsw_cons_ne x c _ _ hxc
  have l2 : ∀ t' : List Char, lsw [x, x] (c :: t') = false := fun t' => lsw_cons_ne x c _ _ hxc
  have l3 : ∀ t' : List Char, lsw [x] (c :: t') = false := fun t' => lsw_cons_ne x c _ _ hxc
  interval_cases k
  · simpa [containsSub, l1] using ht
  · have e : List.replicate 1 x ++ c :: t = x :: c :: t := rfl
    rw [e]
    simp [containsSub, lsw_cons_same, l1, l2, ht]
  · have e : List.replicate 2 x ++ c :: t = x :: x :: c :: t := rfl
    rw [e]
    simp [containsSub, lsw_cons_same, l1, l2, l3, ht]

theorem containsSub_through (x y : Char) (hxy : ¬ x = y) :
    ∀ (m : Nat) (r : List Char),
    containsSub [x, x, x] (List.replicate m y ++ r) = true → containsSub [x, x, x] r = true := by
  intro m
  induction m with
  | zero => intro r h; simpa using h
  | succ m ih =>
    intro r h
    have e : List.replicate (m + 1) y ++ r = y :: (List.replicate m y ++ r) := by
      simp [List.replicate_succ]
    rw [e] at h
    simp only [containsSub, Bool.or_eq_true, lsw_cons_ne x y _ _ hxy] at h
    rcases h with h | h
    · exact absurd h (by simp)
    · exact ih r h

theorem run_le_two (x : Char) (k : Nat) (r : List Char)
    (h : containsSub [x, x, x] (List.replicate k x ++ r) = false) : k ≤ 2 := by
  by_contra hk
  have e0 : List.replicate k x = [x, x, x] ++ List.replicate (k - 3) x := by
    have h3 : k = 3 + (k - 3) := by omega
    conv_lhs => rw [h3]
    rw [List.replicate_add]
    rfl
  have e : List.replicate k x ++ r = [] ++ [x, x, x] ++ (List.replicate (k - 3) x ++ r) := by
    rw [e0]
    simp [List.append_assoc]
  have htrue : containsSub [x, x, x] (List.replicate k x ++ r) = true :=
    (containsSub_iff _ _).mpr ⟨[], List.replicate (k - 3) x ++ r, e⟩
  rw [htrue] at h
  exact Bool.noConfusion h

theorem stripFencesGo_no3 (s : List Char) : ∀ n : Nat,
    containsSub [backquote, backquote, backquote] (stripFencesGo n s) = false := by
  induction s with
  | nil =>
    intro n
    simp only [stripFencesGo, emitTicks]
    by_cases h3 : 3 ≤ n
    · simp [h3, containsSub]
    · rw [if_neg h3]
      exact run3_replicate_le backquote n (by omega)
  | cons c cs ih =>
    intro n
    simp only [stripFencesGo]
    by_cases hc : c = backquote
    · rw [if_pos hc]
      exact ih (n + 1)
    · rw [if_neg hc]
      simp only [emitTicks]
      by_cases h3 : 3 ≤ n
      · rw [if_pos h3, List.nil_append]
        have := noRun_glue backquote c (stripFencesGo 0 cs) 0 (by omega) hc (ih 0)
        simpa using this
      · rw [if_neg h3]
        exact noRun_glue backquote c (stripFencesGo 0 cs) n (by omega) hc (ih 0)

theorem stripFencesGo_fix (s : List Char) : ∀ n : Nat,
    containsSub [backquote, backquote, backquote] (List.replicate n backquote ++ s) = false →
    stripFencesGo n s = List.replicate n backquote ++ s := by
  induction s with
  | nil =>
    intro n h
    have hk : n ≤ 2 := run_le_two _ _ _ h
    simp only [stripFencesGo, emitTicks]
    rw [if_neg (by omega)]
    simp
  | cons c cs ih =>
    intro n h
    simp only [stripFencesGo]
    by_cases hc : c = backquote
    · rw [if_pos hc]
      subst hc
      have e : List.replicate (n + 1) backquote ++ cs =
          List.replicate n backquote ++ backquote :: cs := by
        rw [List.replicate_succ']
        simp
      rw [ih (n + 1) (by rw [e]; exact h), e]
    · rw [if_neg hc]
      have hk : n ≤ 2 := run_le_two _ _ _ h
      have hcs : containsSub [backquote, backquote, backquote] cs = false := by
        rw [Bool.eq_false_iff]
        intro htrue
        have h2 := containsSub_append_left _ cs (List.replicate n backquote ++ [c]) htrue
        have e2 : (List.replicate n backquote ++ [c]) ++ cs =
            List.replicate n backquote ++ c :: cs := by simp
        rw [e2] at h2
        simp [h] at h2
      have hfix : stripFencesGo 0 cs = cs := by simpa using ih 0 (by simpa using hcs)
      rw [hfix]
      simp only [emitTicks]
      rw [if_neg (by omega)]

theorem collapseNLGo_no3 (s : List Char) : ∀ n : Nat,
    containsSub ['\n', '\n', '\n'] (collapseNLGo n s) = false := by
  induction s with
  | nil =>
    intro n
    simp only [collapseNLGo, emitNLs]
    by_cases h3 : 3 ≤ n
    · rw [if_pos h3]
      exact run3_replicate_le '\n' 2 (by omega)
    · rw [if_neg h3]
      exact run3_replicate_le '\n' n (by omega)
  | cons c cs ih =>
    intro n
    simp only [collapseNLGo]
    by_cases hc : c = '\n'
    · rw [if_pos hc]
      exact ih (n + 1)
    · rw [if_neg hc]
      simp only [emitNLs]
      by_cases h3 : 3 ≤ n
      · rw [if_pos h3]
        exact noRun_glue '\n' c (collapseNLGo 0 cs) 2 (by omega) hc (ih 0)
      · rw [if_neg h3]
        exact noRun_glue '\n' c (collapseNLGo 0 cs) n (by omega) hc (ih 0)

theorem collapseNLGo_fix (s : List Char) : ∀ n : Nat,
    containsSub ['\n', '\n', '\n'] (List.replicate n '\n' ++ s) = false →
    collapseNLGo n s = List.replicate n '\n' ++ s := by
  induction s with
  | nil =>
    intro n h
    have hk : n ≤ 2 := run_le_two _ _ _ h
    simp only [collapseNLGo, emitNLs]
    rw [if_neg (by omega)]
    simp
  | cons c cs ih =>
    intro n h
    simp only [collapseNLGo]
    by_cases hc : c = '\n'
    · rw [if_pos hc]
      subst hc
      have e : List.replicate (n + 1) '\n' ++ cs = List.replicate n '\n' ++ '\n' :: cs := by
        rw [List.replicate_succ']
        simp
      rw [ih (n + 1) (by rw [e]; exact h), e]
    · rw [if_neg hc]
      have hk : n ≤ 2 := run_le_two _ _ _ h
      have hcs : containsSub ['\n', '\n', '\n'] cs = false := by
        rw [Bool.eq_false_iff]
        intro htrue
        have h2 := containsSub_append_left _ cs (List.replicate n '\n' ++ [c]) htrue
        have e2 : (List.replicate n '\n' ++ [c]) ++ cs = List.replicate n '\n' ++ c :: cs := by
          simp
        rw [e2] at h2
        simp [h] at h2
      have hfix : collapseNLGo 0 cs = cs := by simpa using ih 0 (by simpa using hcs)
      rw [hfix]
      simp only [emitNLs]
      rw [if_neg (by omega)]

theorem collapseNLGo_headNL (ds : List Char) : ∀ m : Nat, 1 ≤ m →
    ∃ r, collapseNLGo m ds = '\n' :: r := by
  induction ds with
  | nil =>
    intro m hm
    simp only [collapseNLGo, emitNLs]
    by_cases h3 : 3 ≤ m
    · rw [if_pos h3]
      exact ⟨['\n'], rfl⟩
    · rw [if_neg h3]
      match m, hm with
      | 1, _ => exact ⟨[], rfl⟩
      | 2, _ => exact ⟨['\n'], rfl⟩
      | m + 3, _ => omega
  | cons d ds ih =>
    intro m hm
    simp only [collapseNLGo]
    by_cases hd : d = '\n'
    · rw [if_pos hd]
      exact ih (m + 1) (by omega)
    · rw [if_neg hd]
      simp only [emitNLs]
      by_cases h3 : 3 ≤ m
      · rw [if_pos h3]
        exact ⟨'\n' :: (d :: collapseNLGo 0 ds), rfl⟩
      · rw [if_neg h3]
        match m, hm with
        | 1, _ => exact ⟨d :: collapseNLGo 0 ds, rfl⟩
        | 2, _ => exact ⟨'\n' :: (d :: collapseNLGo 0 ds), rfl⟩
        | m + 3, _ => omega

theorem collapseNLGo_zero_cons (cs : List Char) (x : Char) (hx : ¬ x = '\n') (r : List Char)
    (h : collapseNLGo 0 cs = x :: r) : ∃ cs', cs = x :: cs' ∧ r = collapseNLGo 0 cs' := by
  cases cs with
  | nil =>
    simp only [collapseNLGo, emitNLs] at h
    rw [if_neg (by omega)] at h
    exact List.noConfusion h
  | cons d ds =>
    by_cases hd : d = '\n'
    · rw [show collapseNLGo 0 (d :: ds) = collapseNLGo 1 ds from by
        simp only [collapseNLGo]; rw [if_pos hd]] at h
      obtain ⟨r', hr'⟩ := collapseNLGo_headNL ds 1 (by omega)
      rw [hr'] at h
      injection h with h1 _
      exact absurd h1.symm hx
    · rw [show collapseNLGo 0 (d :: ds) = emitNLs 0 ++ d :: collapseNLGo 0 ds from by
        simp only [collapseNLGo]; rw [if_neg hd]] at h
      simp only [emitNLs] at h
      rw [if_neg (by omega)] at h
      simp only [List.replicate, List.nil_append] at h
      injection h with h1 h2
      exact ⟨ds, by rw [h1], h2.symm⟩

theorem emitNLs_replicate (n : Nat) : ∃ k, emitNLs n = List.replicate k '\n' := by
  by_cases h3 : 3 ≤ n
  · exact ⟨2, by simp only [emitNLs]; rw [if_pos h3]; rfl⟩
  · exact ⟨n, by simp only [emitNLs]; rw [if_neg h3]⟩

theorem collapseNLGo_pull (s : List Char) : ∀ (n : Nat) (x : Char), ¬ x = '\n' →
    containsSub [x, x, x] (collapseNLGo n s) = true →
    containsSub [x, x, x] (List.replicate n '\n' ++ s) = true := by
  induction s with
  | nil =>
    intro n x hx h
    obtain ⟨k, hk⟩ := emitNLs_replicate n
    rw [show collapseNLGo n [] = emitNLs n from rfl, hk] at h
    rw [run3_replicate_ne x '\n' k hx] at h
    exact Bool.noConfusion h
  | cons c cs ih =>
    intro n x hx h
    by_cases hc : c = '\n'
    · rw [show collapseNLGo n (c :: cs) = collapseNLGo (n + 1) cs from by
        simp only [collapseNLGo]; rw [if_pos hc]] at h
      have h2 := ih (n + 1) x hx h
      have e : List.replicate (n + 1) '\n' ++ cs = List.replicate n '\n' ++ c :: cs := by
        rw [List.replicate_succ']
        simp [hc]
      rw [e] at h2
      exact h2
    · rw [show collapseNLGo n (c :: cs) = emitNLs n ++ c :: collapseNLGo 0 cs from by
        simp only [collapseNLGo]; rw [if_neg hc]] at h
      obtain ⟨k, hk⟩ := emitNLs_replicate n
      rw [hk] at h
      have h2 : containsSub [x, x, x] (c :: collapseNLGo 0 cs) = true :=
        containsSub_through x '\n' hx k _ h
      simp only [containsSub, Bool.or_eq_true] at h2
      rcases h2 with h2 | h2
      · rcases (lsw_iff _ _).mp h2 with ⟨t', ht'⟩
        have ht2 : c :: collapseNLGo 0 cs = x :: x :: x :: t' := ht'
        injection ht2 with hc_eq hG
        -- hG : collapseNLGo 0 cs = x :: x :: t'
        obtain ⟨cs1, hcs1, hr1⟩ := collapseNLGo_zero_cons cs x hx _ hG
        obtain ⟨cs2, hcs2, _⟩ := collapseNLGo_zero_cons cs1 x hx _ hr1.symm
        apply (containsSub_iff _ _).mpr
        refine ⟨List.replicate n '\n', cs2, ?_⟩
        rw [hcs1, hcs2, hc_eq]
        simp [List.append_assoc]
      · have h3 := ih 0 x hx h2
        have h4 : containsSub [x, x, x] cs = true := by simpa using h3
        have h5 := containsSub_append_left _ cs (List.replicate n '\n' ++ [c]) h4
        have e2 : (List.replicate n '\n' ++ [c]) ++ cs = List.replicate n '\n' ++ c :: cs := by
          simp
        rw [e2] at h5
        exact h5

theorem pyStripChars_sub (p : Char → Bool) (s : List Char) :
    ∃ a b, s = a ++ pyStripChars p s ++ b := by
  refine ⟨s.takeWhile p, ((s.dropWhile p).reverse.takeWhile p).reverse, ?_⟩
  have h1 : s.takeWhile p ++ s.dropWhile p = s := List.takeWhile_append_dropWhile p s
  have h3 : (s.dropWhile p).reverse.takeWhile p ++ (s.dropWhile p).reverse.dropWhile p =
      (s.dropWhile p).reverse := List.takeWhile_append_dropWhile p (s.dropWhile p).reverse
  have h2 : s.dropWhile p =
      pyStripChars p s ++ ((s.dropWhile p).reverse.takeWhile p).reverse := by
    calc s.dropWhile p = (s.dropWhile p).reverse.reverse := (List.reverse_reverse _).symm
      _ = ((s.dropWhile p).reverse.takeWhile p ++ (s.dropWhile p).reverse.dropWhile p).reverse := by
          rw [h3]
      _ = ((s.dropWhile p).reverse.dropWhile p).reverse ++
            ((s.dropWhile p).reverse.takeWhile p).reverse := by
          rw [List.reverse_append]
      _ = pyStripChars p s ++ ((s.dropWhile p).reverse.takeWhile p).reverse := rfl
  conv_lhs => rw [← h1, h2]
  simp [List.append_assoc]

theorem pyStripChars_pres (p : Char → Bool) (n s : List Char)
    (h : containsSub n s = false) : containsSub n (pyStripChars p s) = false := by
  rw [Bool.eq_false_iff]
  intro htrue
  rcases (containsSub_iff _ _).mp htrue with ⟨u, v, huv⟩
  rcases pyStripChars_sub p s with ⟨a, b, hab⟩
  have hs : containsSub n s = true := by
    apply (containsSub_iff _ _).mpr
    refine ⟨a ++ u, v ++ b, ?_⟩
    rw [hab, huv]
    simp [List.append_assoc]
  simp [h] at hs

theorem dropWhile_idem (p : Char → Bool) (s : List Char) :
    (s.dropWhile p).dropWhile p = s.dropWhile p := by
  induction s with
  | nil => rfl
  | cons c cs ih =>
    by_cases hc : p c = true
    · simp [List.dropWhile_cons, hc, ih]
    · simp [List.dropWhile_cons, hc]

theorem dropWhile_res_head (p : Char → Bool) (s : List Char) :
    s.dropWhile p = [] ∨ ∃ c r, s.dropWhile p = c :: r ∧ p c = false := by
  induction s with
  | nil => exact Or.inl rfl
  | cons c cs ih =>
    by_cases hc : p c = true
    · simpa [List.dropWhile_cons, hc] using ih
    · refine Or.inr ⟨c, cs, ?_, ?_⟩
      · simp [List.dropWhile_cons, hc]
      · simpa using hc

theorem dropWhile_ends (p : Char → Bool) (l : List Char) (c : Char) (hpc : p c = false) :
    ∃ m, (l ++ [c]).dropWhile p = m ++ [c] := by
  induction l with
  | nil =>
    refine ⟨[], ?_⟩
    simp [List.dropWhile_cons, hpc]
  | cons d ds ih =>
    by_cases hd : p d = true
    · simpa [List.dropWhile_cons, hd] using ih
    · refine ⟨d :: ds, ?_⟩
      simp [List.dropWhile_cons, hd]

theorem pyStripChars_idem (p : Char → Bool) (s : List Char) :
    pyStripChars p (pyStripChars p s) = pyStripChars p s := by
  cases hres : s.dropWhile p with
  | nil =>
    have h0 : pyStripChars p s = [] := by
      unfold pyStripChars
      rw [hres]
      rfl
    rw [h0]
    rfl
  | cons h0 t0 =>
    have hph : p h0 = false := by
      rcases dropWhile_res_head p s with hh | ⟨c, r, hcr, hpc⟩
      · rw [hres] at hh
        exact List.noConfusion hh
      · rw [hres] at hcr
        injection hcr with e1 _
        rw [e1]
        exact hpc
    have hrev1 : (s.dropWhile p).reverse = t0.reverse ++ [h0] := by
      rw [hres]
      simp
    obtain ⟨m, hm⟩ := dropWhile_ends p t0.reverse h0 hph
    have hu : pyStripChars p s = h0 :: m.reverse := by
      show ((s.dropWhile p).reverse.dropWhile p).reverse = h0 :: m.reverse
      rw [hrev1, hm]
      simp
    have h1 : (pyStripChars p s).dropWhile p = pyStripChars p s := by
      rw [hu]
      simp [List.dropWhile_cons, hph]
    have h2 : (pyStripChars p s).reverse.dropWhile p = (pyStripChars p s).reverse := by
      have e : (pyStripChars p s).reverse = (s.dropWhile p).reverse.dropWhile p := by
        show (((s.dropWhile p).reverse.dropWhile p).reverse).reverse = _
        simp
      rw [e, dropWhile_idem]
    have main : pyStripChars p (pyStripChars p s) =
        (((pyStripChars p s).dropWhile p).reverse.dropWhile p).reverse := rfl
    rw [main, h1, h2]
    simp

/-- Claim C4: the markdown cleaning performed by `to_markdown` (strip code
fences, collapse runs of three or more newlines, trim surrounding
whitespace) is idempotent: cleaning an already-cleaned string returns it
unchanged. -/
theorem claim_C4 : ∀ s : List Char, to_markdown (to_markdown s) = to_markdown s := by
  intro s
  have hinner : containsSub [backquote, backquote, backquote]
      (collapseNL (stripFences s)) = false := by
    rw [Bool.eq_false_iff]
    intro h
    have h2 := collapseNLGo_pull (stripFences s) 0 backquote (by decide) h
    rw [show List.replicate 0 '\n' ++ stripFences s = stripFences s from by simp] at h2
    have h3 := stripFencesGo_no3 s 0
    rw [show stripFences s = stripFencesGo 0 s from rfl, h3] at h2
    exact Bool.noConfusion h2
  have hbq3 : containsSub [backquote, backquote, backquote] (to_markdown s) = false :=
    pyStripChars_pres pyIsSpace _ _ hinner
  have hnl3 : containsSub ['\n', '\n', '\n'] (to_markdown s) = false :=
    pyStripChars_pres pyIsSpace _ _ (collapseNLGo_no3 (stripFences s) 0)
  show pyStrip (collapseNL (stripFences (to_markdown s))) = to_markdown s
  have h1 : stripFences (to_markdown s) = to_markdown s := by
    have := stripFencesGo_fix (to_markdown s) 0 (by simpa using hbq3)
    simpa using this
  rw [h1]
  have h2 : collapseNL (to_markdown s) = to_markdown s := by
    have := collapseNLGo_fix (to_markdown s) 0 (by simpa using hnl3)
    simpa using this
  rw [h2]
  exact pyStripChars_idem pyIsSpace (collapseNL (stripFences s))

/-! ### Matcher invariants for the amended claim C5 -/

theorem takeApp (u v : List Char) : (u ++ v).take u.length = u := by
  induction u with
  | nil => rfl
  | cons c cs ih =>
    simp only [List.cons_append, List.length_cons, List.take_succ_cons]
    rw [ih]

theorem dropApp (u v : List Char) : (u ++ v).drop u.length = v := by
  induction u with
  | nil => rfl
  | cons c cs ih =>
    simp only [List.cons_append, List.length_cons, List.drop_succ_cons]
    exact ih

theorem matStarW_sound : ∀ (rest : List Char) (prev : Option Char) (pos : Nat)
    (k : Option Char → List Char → Nat → Option Nat) (v : Nat),
    matStarW prev rest pos k = some v →
    ∃ u rest2, rest = u ++ rest2 ∧ k (lastD prev u) rest2 (pos + u.length) = some v := by
  intro rest
  induction rest with
  | nil =>
    intro prev pos k v h
    refine ⟨[], [], rfl, ?_⟩
    simpa [matStarW] using h
  | cons c cs ih =>
    intro prev pos k v h
    simp only [matStarW] at h
    by_cases hw : isWordChar c = true
    · rw [if_pos hw] at h
      rcases hm : matStarW (some c) cs (pos + 1) k with _ | v'
      · simp only [hm] at h
        exact ⟨[], c :: cs, rfl, by simpa using h⟩
      · simp only [hm] at h
        injection h with hv
        obtain ⟨u, r2, he, hk⟩ := ih (some c) (pos + 1) k v (by rw [hm, hv])
        refine ⟨c :: u, r2, by rw [he, List.cons_append], ?_⟩
        have e1 : lastD prev (c :: u) = lastD (some c) u := rfl
        have e2 : pos + (c :: u).length = pos + 1 + u.length := by
          simp only [List.length_cons]
          omega
        rw [e1, e2]
        exact hk
    · rw [if_neg hw] at h
      exact ⟨[], c :: cs, rfl, by simpa using h⟩

theorem mat_sound : ∀ (r : RE) (prev : Option Char) (rest : List Char) (pos : Nat)
    (k : Option Char → List Char → Nat → Option Nat) (v : Nat),
    mat r prev rest pos k = some v →
    ∃ u rest2, rest = u ++ rest2 ∧ k (lastD prev u) rest2 (pos + u.length) = some v := by
  intro r
  induction r with
  | eps =>
    intro prev rest pos k v h
    exact ⟨[], rest, rfl, by simpa [mat] using h⟩
  | ch c =>
    intro prev rest pos k v h
    cases rest with
    | nil => exact absurd h (by simp [mat])
    | cons x xs =>
      simp only [mat] at h
      by_cases hx : x = c
      · rw [if_pos hx] at h
        exact ⟨[x], xs, rfl, by simpa using h⟩
      · rw [if_neg hx] at h
        exact Option.noConfusion h
  | classW =>
    intro prev rest pos k v h
    cases rest with
    | nil => exact absurd h (by simp [mat])
    | cons x xs =>
      simp only [mat] at h
      by_cases hx : isWordChar x = true
      · rw [if_pos hx] at h
        exact ⟨[x], xs, rfl, by simpa using h⟩
      · rw [if_neg hx] at h
        exact Option.noConfusion h
  | wordB =>
    intro prev rest pos k v h
    simp only [mat] at h
    by_cases hb : atWordBoundary prev rest = true
    · rw [if_pos hb] at h
      exact ⟨[], rest, rfl, by simpa using h⟩
    · rw [if_neg hb] at h
      exact Option.noConfusion h
  | seq a b iha ihb =>
    intro prev rest pos k v h
    simp only [mat] at h
    obtain ⟨u1, r1, he1, hk1⟩ := iha prev rest pos _ v h
    obtain ⟨u2, r2, he2, hk2⟩ := ihb _ r1 _ k v hk1
    refine ⟨u1 ++ u2, r2, by rw [he1, he2, List.append_assoc], ?_⟩
    have e1 : lastD prev (u1 ++ u2) = lastD (lastD prev u1) u2 := by
      simp [lastD, List.foldl_append]
    have e2 : pos + (u1 ++ u2).length = pos + u1.length + u2.length := by
      simp only [List.length_append]
      omega
    rw [e1, e2]
    exact hk2
  | alt a b iha ihb =>
    intro prev rest pos k v h
    simp only [mat] at h
    rcases hm : mat a prev rest pos k with _ | v'
    · simp only [hm] at h
      exact ihb prev rest pos k v h
    · simp only [hm] at h
      injection h with hv
      exact iha prev rest pos k v (by rw [hm, hv])
  | opt a iha =>
    intro prev rest pos k v h
    simp only [mat] at h
    rcases hm : mat a prev rest pos k with _ | v'
    · simp only [hm] at h
      exact ⟨[], rest, rfl, by simpa using h⟩
    · simp only [hm] at h
      injection h with hv
      exact iha prev rest pos k v (by rw [hm, hv])
  | starW =>
    intro prev rest pos k v h
    exact matStarW_sound rest prev pos k v h

theorem mat_bnd (r : RE) (prev : Option Char) (rest : List Char) (pos : Nat)
    (k : Option Char → List Char → Nat → Option Nat) (v : Nat)
    (h : mat (bnd r) prev rest pos k = some v) :
    atWordBoundary prev rest = true ∧
    ∃ u rest2, rest = u ++ rest2 ∧ atWordBoundary (lastD prev u) rest2 = true ∧
      k (lastD prev u) rest2 (pos + u.length) = some v := by
  simp only [bnd, mat] at h
  by_cases hb : atWordBoundary prev rest = true
  · rw [if_pos hb] at h
    obtain ⟨u, r2, he, hk⟩ := mat_sound r prev rest pos _ v h
    by_cases hb2 : atWordBoundary (lastD prev u) r2 = true
    · rw [if_pos hb2] at hk
      exact ⟨hb, u, r2, he, hb2, hk⟩
    · rw [if_neg hb2] at hk
      exact Option.noConfusion hk
  · rw [if_neg hb] at h
    exact Option.noConfusion h

theorem searchFrom_spec (r : RE) : ∀ (rest : List Char) (prev : Option Char) (pos i j : Nat),
    searchFrom r prev rest pos = some (i, j) →
    ∃ u rest2, rest = u ++ rest2 ∧ i = pos + u.length ∧
      mat r (lastD prev u) rest2 i (fun _ _ q => some q) = some j := by
  intro rest
  induction rest with
  | nil =>
    intro prev pos i j h
    simp only [searchFrom] at h
    rcases hm : mat r prev [] pos (fun _ _ q => some q) with _ | e
    · simp only [hm] at h
      exact Option.noConfusion h
    · simp only [hm] at h
      injection h with hp
      have h1 : pos = i := congrArg Prod.fst hp
      have h2 : e = j := congrArg Prod.snd hp
      subst h1
      subst h2
      exact ⟨[], [], rfl, by simp, hm⟩
  | cons c cs ih =>
    intro prev pos i j h
    simp only [searchFrom] at h
    rcases hm : mat r prev (c :: cs) pos (fun _ _ q => some q) with _ | e
    · simp only [hm] at h
      obtain ⟨u', r2, he, hi, hmat⟩ := ih (some c) (pos + 1) i j h
      refine ⟨c :: u', r2, by rw [he, List.cons_append], ?_, ?_⟩
      · simp only [List.length_cons]
        omega
      · have e1 : lastD prev (c :: u') = lastD (some c) u' := rfl
        rw [e1]
        exact hmat
    · simp only [hm] at h
      injection h with hp
      have h1 : pos = i := congrArg Prod.fst hp
      have h2 : e = j := congrArg Prod.snd hp
      subst h1
      subst h2
      exact ⟨[], c :: cs, rfl, by simp, hm⟩

/-- Claim C5 as amended: every pattern of the table other than
married|single|divorced has the boundary-anchored shape and therefore
matches only at word boundaries — the start and the end of any match fall
on word boundaries of the text — while in married|single|divorced the
alternation anchors only `married` on the left and `divorced` on the
right, so its bare `single` branch matches inside longer words: the text
"singleton" does produce a finding for that pattern. -/
theorem claim_C5_thm :
    (∀ (r : RE) (text : List Char) (i j : Nat),
      reSearch (bnd r) text = some (i, j) →
      atWordBoundary (lastD none (text.take i)) (text.drop i) = true ∧
      atWordBoundary (lastD none (text.take j)) (text.drop j) = true) ∧
    (∀ e ∈ RISKY_PHRASES, e.pat ≠ "\\bmarried|single|divorced\\b" → ∃ body, e.re = bnd body) ∧
    (compliance_findings "singleton").countP
      (fun f => f.1 == "married|single|divorced") = 1 := by
  refine ⟨?_, ?_, by decide⟩
  · intro r text i j h
    obtain ⟨u, rest2, he, hi, hm⟩ := searchFrom_spec (bnd r) text none 0 i j h
    obtain ⟨hb1, u2, r3, he2, hb2, hk⟩ := mat_bnd r (lastD none u) rest2 i _ j hm
    injection hk with hv
    have hiu : i = u.length := by simpa using hi
    have hj : j = i + u2.length := hv.symm
    have ht1 : text.take i = u := by
      rw [he, hiu]
      exact takeApp u rest2
    have hd1 : text.drop i = rest2 := by
      rw [he, hiu]
      exact dropApp u rest2
    have he3 : text = (u ++ u2) ++ r3 := by
      rw [he, he2, List.append_assoc]
    have hju : j = (u ++ u2).length := by
      rw [List.length_append]
      omega
    have ht2 : text.take j = u ++ u2 := by
      rw [he3, hju]
      exact takeApp _ r3
    have hd2 : text.drop j = r3 := by
      rw [he3, hju]
      exact dropApp _ r3
    constructor
    · rw [ht1, hd1]
      exact hb1
    · rw [ht2, hd2]
      have e1 : lastD none (u ++ u2) = lastD (lastD none u) u2 := by
        simp [lastD, List.foldl_append]
      rw [e1]
      exact hb2
  · intro e he hne
    simp only [RISKY_PHRASES, List.mem_cons] at he
    rcases he with rfl | rfl | rfl | rfl | rfl | rfl | rfl | rfl | rfl | hfalse
    · exact ⟨litRE "young", rfl⟩
    · exact ⟨litRE "recent graduate", rfl⟩
    · exact ⟨RE.seq (litRE "able") (RE.seq (RE.opt (RE.ch '-')) (litRE "bodied")), rfl⟩
    · exact ⟨RE.seq (litRE "must be a ")
        (RE.seq (RE.alt (litRE "us") (RE.alt (litRE "uk") (litRE "eu"))) (litRE " citizen")), rfl⟩
    · exact ⟨RE.seq (litRE "native ") (RE.alt (litRE "english") (litRE "speaker")), rfl⟩
    · exact ⟨RE.seq (RE.opt (litRE "no ")) (litRE "criminal record"), rfl⟩
    · exact ⟨litRE "clean driving record", rfl⟩
    · exact ⟨RE.seq (RE.opt (litRE "no ")) (RE.seq (litRE "pregnan") RE.starW), rfl⟩
    · exact absurd rfl hne
    · exact absurd hfalse (List.not_mem_nil e)

/-- Witness for the amended claim C5: the `young` pattern matches
"a young cat" at span 2–7, and both ends of that match are word
boundaries. -/
theorem claim_C5_witness :
    reSearch (bnd (litRE "young")) ("a young cat".toList) = some (2, 7) ∧
    (atWordBoundary (lastD none (("a young cat".toList).take 2))
        (("a young cat".toList).drop 2) = true ∧
     atWordBoundary (lastD none (("a young cat".toList).take 7))
        (("a young cat".toList).drop 7) = true) :=
  ⟨by decide, claim_C5_thm.1 (litRE "young") ("a young cat".toList) 2 7 (by decide)⟩
